import Mathlib

/-!
Shallow embedding of the result-classification and address-comparison core of
the address-validator service (`src/services/googleGeocodingService.ts`),
together with proofs about the spec's claims.

Modelling conventions:
- JavaScript strings are modelled as lists of Unicode code points (`List Nat`);
  a string literal `s` in the source is written `str "s"`.
- `String.prototype.toLowerCase` is modelled on the ASCII range (the only range
  the classification logic distinguishes); regex `\w` (word boundary class) and
  `\s` (whitespace class) are modelled by `isWordChar` and `isSpaceChar`.
- JavaScript numbers appearing in the similarity computation are modelled as
  exact rationals; the literal `0.6` is the rational `mkRat 3 5`, and the
  floating-point division `common / total` is `mkRat common total`.
- Fields that may be `undefined` on the raw provider payload (an `any` value in
  the source) are modelled as `Option`; an operation that would throw a
  `TypeError` on `undefined` (property access / `.find` on a missing array) is
  modelled in the `Except Unit` monad, with `.error ()` standing for a thrown
  exception.
- Truthiness tests on strings (`!components.street_number`,
  `get("locality") || get("postal_town")`) treat `undefined` and the empty
  string as falsy, exactly as JavaScript does.
-/

namespace Geocode

/-- JavaScript strings, as lists of code points. -/
abbrev Str := List Nat

/-- Code-point list of a Lean string literal. -/
def str (s : String) : Str := s.data.map Char.toNat

/-- Regex `\w` class: `[A-Za-z0-9_]`, used by the `\b` word boundaries of the
abbreviation regexes in `compareAddresses`. -/
def isWordChar (c : Nat) : Bool :=
  decide ((48 ≤ c ∧ c ≤ 57) ∨ (65 ≤ c ∧ c ≤ 90) ∨ (97 ≤ c ∧ c ≤ 122) ∨ c = 95)

/-- Regex `\s` class (and the set trimmed by `String.prototype.trim`):
ASCII whitespace, NBSP, BOM and the Unicode space separators. -/
def isSpaceChar (c : Nat) : Bool :=
  decide ((9 ≤ c ∧ c ≤ 13) ∨ c = 32 ∨ c = 160 ∨ c = 5760 ∨
    (8192 ≤ c ∧ c ≤ 8202) ∨ c = 8232 ∨ c = 8233 ∨ c = 8239 ∨ c = 8287 ∨
    c = 12288 ∨ c = 65279)

/-- `toLowerCase`, per code point (ASCII range). -/
def lowerChar (c : Nat) : Nat :=
  if 65 ≤ c ∧ c ≤ 90 then c + 32 else c

/-- `.replace(/[\.,]/g, "")`: drop periods and commas. -/
def stripPunct (l : Str) : Str :=
  l.filter (fun c => !(decide (c = 46) || decide (c = 44)))

/-- Trailing word-boundary check for a match of length `n` at the head of `l`:
the code point after the match must be absent or a non-word character. -/
def boundOk (n : Nat) (l : Str) : Bool :=
  match l.drop n with
  | [] => true
  | d :: _ => !isWordChar d

/-- Scanner for `.replace(/\b(word)\b/g, repl)` with `word = w0 :: wt`.
The second argument is `some u` while the scanner is consuming the remaining
matched characters `u` of an occurrence (the replacement text has already been
emitted); the third argument records whether the previous code point of the
original string was a word character (`\b` look-behind). -/
def rep (w0 : Nat) (wt : Str) (r : Str) : Str → Option Str → Bool → Str
  | [], _, _ => []
  | c :: cs, some [_], _ => rep w0 wt r cs none (isWordChar c)
  | c :: cs, some (_ :: w1 :: wrest), _ => rep w0 wt r cs (some (w1 :: wrest)) true
  | c :: cs, some [], _ => c :: rep w0 wt r cs none (isWordChar c)
  | c :: cs, none, prev =>
    if !prev && decide ((c :: cs).take (wt.length + 1) = w0 :: wt) &&
        boundOk (wt.length + 1) (c :: cs) then
      r ++ (match wt with
        | [] => rep w0 wt r cs none (isWordChar c)
        | w1 :: wrest => rep w0 wt r cs (some (w1 :: wrest)) true)
    else
      c :: rep w0 wt r cs none (isWordChar c)

/-- Global whole-word replacement, `.replace(/\b(w)\b/g, r)`.
All words used by the source are non-empty; on the empty word the function is
the identity. -/
def replaceWord (w r l : Str) : Str :=
  match w with
  | [] => l
  | w0 :: wt => rep w0 wt r l none false

/-- Scanner for `.replace(/\s+/g, " ")`; the flag records whether the previous
code point belonged to a whitespace run whose single space was already
emitted. -/
def colGo : Str → Bool → Str
  | [], _ => []
  | c :: cs, inRun =>
    if isSpaceChar c then
      if inRun then colGo cs true else 32 :: colGo cs true
    else c :: colGo cs false

/-- `.replace(/\s+/g, " ")`: collapse every whitespace run to one space. -/
def collapseWs (l : Str) : Str := colGo l false

/-- Leading-whitespace removal (first half of `.trim()`). -/
def ltrimJs (l : Str) : Str := l.dropWhile isSpaceChar

/-- Trailing-whitespace removal (second half of `.trim()`). -/
def rtrimJs (l : Str) : Str := (l.reverse.dropWhile isSpaceChar).reverse

/-- `String.prototype.trim`. -/
def trimJs (l : Str) : Str := rtrimJs (ltrimJs l)

/-- The `normalize` arrow function inside `compareAddresses`: lowercase, strip
periods and commas, abbreviate `road`/`street`/`avenue`/`mountain` at word
boundaries, collapse whitespace, trim. -/
def normalize (s : Str) : Str :=
  trimJs (collapseWs
    (replaceWord (str "mountain") (str "mtn")
      (replaceWord (str "avenue") (str "ave")
        (replaceWord (str "street") (str "st")
          (replaceWord (str "road") (str "rd")
            (stripPunct (s.map lowerChar)))))))

/-- `String.prototype.split(" ")`: split on every single space; the empty
string yields `[""]`. -/
def splitOnSp : Str → List Str
  | [] => [[]]
  | c :: cs =>
    if c = 32 then [] :: splitOnSp cs
    else
      match splitOnSp cs with
      | [] => [[c]]
      | w :: ws => (c :: w) :: ws

/-- The word-overlap similarity of two already-normalized strings, lines
193-197 of the source: word sets via `new Set(s.split(" "))`, then
`|intersection| / max(|inputWords|, |resultWords|)` as an exact rational. -/
def wordSimilarity (ni nr : Str) : ℚ :=
  let iw := (splitOnSp ni).dedup
  let rw := (splitOnSp nr).dedup
  let common := (iw.filter (fun w => decide (w ∈ rw))).length
  let total := max iw.length rw.length
  mkRat common total

/-- The comparator's verdict type. -/
inductive MatchStatus
  | validated
  | corrected
deriving DecidableEq

/-- `compareAddresses(input, result)`: normalized equality, else word-overlap
similarity against the source's threshold `0.6` (the rational `mkRat 3 5`). -/
def compareAddresses (input result : Str) : MatchStatus :=
  let ni := normalize input
  let nr := normalize result
  if ni = nr then .validated
  else if mkRat 3 5 < wordSimilarity ni nr then .validated
  else .corrected

/-- One record of a Google `address_components` array. A missing `types`
array makes `c.types.includes(t)` throw, hence the `Option`. -/
structure RawComponent where
  long_name : Option Str
  short_name : Option Str
  types : Option (List Str)
deriving DecidableEq

/-- The `geometry` object of a candidate (only `location_type` is read). -/
structure Geometry where
  location_type : Option Str
deriving DecidableEq

/-- One geocoding result of the provider response. -/
structure Candidate where
  formatted_address : Str
  partial_match : Bool
  geometry : Option Geometry
  types : Option (List Str)
  address_components : Option (List RawComponent)
deriving DecidableEq

/-- The simplified component set of `types/Address.ts`. -/
structure AddressComponents where
  street_number : Option Str
  street_name : Option Str
  city : Option Str
  state : Option Str
  zipCode : Option Str
deriving DecidableEq

/-- The three values of the `status` field of `AddressValidationResult`. -/
inductive VStatus
  | VALIDATED
  | CORRECTED
  | UNVERIFIABLE
deriving DecidableEq

/-- The `exactMatch` payload of a VALIDATED result. -/
structure ExactMatch where
  formatted_address : Str
  components : AddressComponents
deriving DecidableEq

/-- `AddressValidationResult` of `types/Address.ts`. -/
structure AddressValidationResult where
  status : VStatus
  exactMatch : Option ExactMatch
  possibleMatches : Option (List Str)
  message : Option Str
deriving DecidableEq

/-- `components.find(c => c.types.includes(type))`: first record tagged `t`,
throwing on a record without a `types` array. -/
def findTyped (t : Str) : List RawComponent → Except Unit (Option RawComponent)
  | [] => .ok none
  | c :: cs =>
    match c.types with
    | none => .error ()
    | some ts => if t ∈ ts then .ok (some c) else findTyped t cs

/-- The `get(type, useShort)` helper of `extractAddressComponents`. -/
def getComp (comps : List RawComponent) (t : Str) (useShort : Bool) :
    Except Unit (Option Str) :=
  match findTyped t comps with
  | .error e => .error e
  | .ok none => .ok none
  | .ok (some c) => .ok (if useShort then c.short_name else c.long_name)

/-- `extractAddressComponents(components)`. The argument is `none` when the
caller passes an `undefined` array (then `components.find` throws at once);
`get("locality") || get("postal_town")` short-circuits on a truthy
(non-empty) locality, like the JavaScript `||`. -/
def extractAddressComponents :
    Option (List RawComponent) → Except Unit AddressComponents
  | none => .error ()
  | some comps => do
    let sn ← getComp comps (str "street_number") false
    let rt ← getComp comps (str "route") false
    let loc ← getComp comps (str "locality") false
    let city ←
      match loc with
      | some s => if s = [] then getComp comps (str "postal_town") false
                  else pure (some s)
      | none => getComp comps (str "postal_town") false
    let st ← getComp comps (str "administrative_area_level_1") true
    let zip ← getComp comps (str "postal_code") false
    pure ⟨sn, rt, city, st, zip⟩

/-- JavaScript truthiness of an optional string: `undefined` and `""` are
falsy. -/
def truthyStr : Option Str → Bool
  | none => false
  | some s => decide (s ≠ [])

/-- The `lacksDetail` conjunction of `isCountryOnlyResult`: street number,
street name, city and postal code all falsy. -/
def lacksStreetDetail (comps : AddressComponents) : Bool :=
  !truthyStr comps.street_number && !truthyStr comps.street_name &&
    !truthyStr comps.city && !truthyStr comps.zipCode

/-- `Array.isArray(result.types) && result.types.includes("country")`. -/
def hasCountryType (r : Candidate) : Bool :=
  match r.types with
  | some ts => decide (str "country" ∈ ts)
  | none => false

/-- `isCountryOnlyResult(result)`: non-partial candidates are never
country-only; for partial ones the components are extracted from
`result.address_components || []` (which can throw on a malformed record)
and the verdict is `hasCountryType || lacksDetail`. -/
def isCountryOnlyResult (r : Candidate) : Except Unit Bool :=
  if !r.partial_match then .ok false
  else
    match extractAddressComponents (some (r.address_components.getD [])) with
    | .error e => .error e
    | .ok comps => .ok (hasCountryType r || lacksStreetDetail comps)

/-- `results.filter(r => !isCountryOnlyResult(r))`, with a thrown exception
propagating out of the filter. -/
def filterNonCountry : List Candidate → Except Unit (List Candidate)
  | [] => .ok []
  | r :: rs =>
    match isCountryOnlyResult r with
    | .error e => .error e
    | .ok b =>
      match filterNonCountry rs with
      | .error e => .error e
      | .ok rest => .ok (if b then rest else r :: rest)

/-- `r.geometry?.location_type` (optional chaining). -/
def locType (r : Candidate) : Option Str :=
  r.geometry.bind Geometry.location_type

/-- The `exactMatches` predicate: `!r.partial_match &&
r.geometry?.location_type === "ROOFTOP"`. -/
def isExactCandidate (r : Candidate) : Bool :=
  !r.partial_match && decide (locType r = some (str "ROOFTOP"))

/-- The `possibleMatches` predicate: `r.partial_match ||
["RANGE_INTERPOLATED", "GEOMETRIC_CENTER", "APPROXIMATE"].includes(
r.geometry?.location_type)`. -/
def isPossibleCandidate (r : Candidate) : Bool :=
  r.partial_match ||
    decide (locType r = some (str "RANGE_INTERPOLATED") ∨
      locType r = some (str "GEOMETRIC_CENTER") ∨
      locType r = some (str "APPROXIMATE"))

/-- `classifyGeocodeResults(results, originalInput)`. A thrown `TypeError`
(malformed candidate data) surfaces as `.error ()`. -/
def classifyGeocodeResults (results : List Candidate) (originalInput : Str) :
    Except Unit AddressValidationResult :=
  if results.isEmpty then
    .ok ⟨.UNVERIFIABLE, none, none, some (str "No address found.")⟩
  else
    match filterNonCountry results with
    | .error e => .error e
    | .ok nonCountry =>
      if nonCountry.isEmpty then
        .ok ⟨.UNVERIFIABLE, none, none, some (str "No precise US match found.")⟩
      else
        match nonCountry.filter isExactCandidate with
        | best :: _ =>
          match extractAddressComponents best.address_components with
          | .error e => .error e
          | .ok comps =>
            if compareAddresses originalInput best.formatted_address = .validated then
              .ok ⟨.VALIDATED, some ⟨best.formatted_address, comps⟩, none, none⟩
            else
              .ok ⟨.CORRECTED, none, some [best.formatted_address], none⟩
        | [] =>
          match nonCountry.filter isPossibleCandidate with
          | [] =>
            .ok ⟨.UNVERIFIABLE, none, none, some (str "No precise US match found.")⟩
          | p :: ps =>
            .ok ⟨.CORRECTED, none,
              some (((p :: ps)).map Candidate.formatted_address), none⟩


/-! ### Concrete candidates used by witnesses and counterexamples -/

/-- Scenario-5 candidate: rooftop, non-partial, empty component list. -/
def c5cand : Candidate :=
  ⟨str "123 Main St, Anytown, CA 90210, USA", false,
    some ⟨some (str "ROOFTOP")⟩, some [], some []⟩

/-- A rooftop non-partial candidate whose `address_components` is undefined. -/
def c6cand : Candidate :=
  ⟨str "1 A St", false, some ⟨some (str "ROOFTOP")⟩, some [], none⟩

/-- Like `c6cand` (undefined `address_components`), for the C1 counterexample. -/
def c1bad : Candidate :=
  ⟨str "5 B Ave", false, some ⟨some (str "ROOFTOP")⟩, some [], none⟩

/-- Scenario-1 candidate with its full component array. -/
def s1cand : Candidate :=
  ⟨str "1600 Amphitheatre Pkwy, Mountain View, CA 94043, USA", false,
    some ⟨some (str "ROOFTOP")⟩, some [],
    some [⟨some (str "1600"), some (str "1600"), some [str "street_number"]⟩,
          ⟨some (str "Amphitheatre Pkwy"), some (str "Amphitheatre Pkwy"), some [str "route"]⟩,
          ⟨some (str "Mountain View"), some (str "Mountain View"), some [str "locality"]⟩,
          ⟨some (str "California"), some (str "CA"), some [str "administrative_area_level_1"]⟩,
          ⟨some (str "94043"), some (str "94043"), some [str "postal_code"]⟩]⟩

/-- A partial candidate that is not country-typed but whose extracted street
number is the (falsy) empty string, all other detail fields absent. -/
def r3 : Candidate :=
  ⟨str "E", true, none, some [],
    some [⟨some [], some [], some [str "street_number"]⟩]⟩

/-- A partial, country-typed candidate (country-bias fallback). -/
def rCtry : Candidate :=
  ⟨str "United States", true, none, some [str "country"], some []⟩

/-- A non-partial, country-typed, APPROXIMATE candidate with no detail. -/
def cUS : Candidate :=
  ⟨str "United States", false, some ⟨some (str "APPROXIMATE")⟩,
    some [str "country"], some []⟩

/-- First rooftop candidate of the C4 counterexample: does not resemble the
input. -/
def c4a : Candidate :=
  ⟨str "xxx yyy zzz", false, some ⟨some (str "ROOFTOP")⟩, some [], some []⟩

/-- Second rooftop candidate of the C4 counterexample: equals the input. -/
def c4b : Candidate :=
  ⟨str "aaa bbb ccc", false, some ⟨some (str "ROOFTOP")⟩, some [], some []⟩

/-- Scenario-4 candidate (partial, APPROXIMATE, Springfield IL). -/
def cApp1 : Candidate :=
  ⟨str "123 Main St, Springfield, IL", true, some ⟨some (str "APPROXIMATE")⟩,
    some [], some [⟨some (str "123"), some (str "123"), some [str "street_number"]⟩]⟩

/-- Scenario-4 candidate (partial, APPROXIMATE, Springfield MO). -/
def cApp2 : Candidate :=
  ⟨str "123 Main St, Springfield, MO", true, some ⟨some (str "APPROXIMATE")⟩,
    some [], some [⟨some (str "123"), some (str "123"), some [str "street_number"]⟩]⟩

/-! ### Helper lemmas about the classifier -/

/-- Every survivor of the country-only filter is one of the input candidates. -/
theorem filterNonCountry_mem {results nc : List Candidate}
    (h : filterNonCountry results = .ok nc) : ∀ c ∈ nc, c ∈ results := by
  induction results generalizing nc with
  | nil =>
    simp only [filterNonCountry, Except.ok.injEq] at h
    subst h
    intro c hc
    exact absurd hc (List.not_mem_nil c)
  | cons r rs ih =>
    simp only [filterNonCountry] at h
    cases hr : isCountryOnlyResult r with
    | error e => rw [hr] at h; cases h
    | ok b =>
      rw [hr] at h
      cases hrs : filterNonCountry rs with
      | error e => rw [hrs] at h; cases h
      | ok rest =>
        rw [hrs] at h
        simp only [Except.ok.injEq] at h
        subst h
        intro c hc
        cases b with
        | true =>
          simp only [if_pos rfl] at hc
          exact List.mem_cons_of_mem r (ih hrs c hc)
        | false =>
          simp only [Bool.false_eq_true, if_neg] at hc
          rcases List.mem_cons.mp hc with h1 | h2
          · exact h1 ▸ List.mem_cons_self r rs
          · exact List.mem_cons_of_mem r (ih hrs c h2)

/-- If every candidate is judged country-only, the filter keeps nothing. -/
theorem filterNonCountry_all_true {results : List Candidate}
    (h : ∀ c ∈ results, isCountryOnlyResult c = .ok true) :
    filterNonCountry results = .ok [] := by
  induction results with
  | nil => rfl
  | cons r rs ih =>
    simp only [filterNonCountry]
    rw [h r (List.mem_cons_self r rs), ih (fun c hc => h c (List.mem_cons_of_mem r hc))]
    rfl

/-- Branch lemma: a non-empty candidate list whose country-filtered list is
`nc` and whose first exact candidate is `best` (components extracting to
`comps`) classifies by the comparator verdict on `best`. -/
theorem classify_exact_case {results nc rest : List Candidate} {best : Candidate}
    {comps : AddressComponents} (input : Str)
    (h0 : results ≠ [])
    (h1 : filterNonCountry results = .ok nc)
    (h2 : nc.filter isExactCandidate = best :: rest)
    (h3 : extractAddressComponents best.address_components = .ok comps) :
    classifyGeocodeResults results input =
      (if compareAddresses input best.formatted_address = .validated then
        .ok ⟨.VALIDATED, some ⟨best.formatted_address, comps⟩, none, none⟩
      else
        .ok ⟨.CORRECTED, none, some [best.formatted_address], none⟩) := by
  have hres : results.isEmpty = false := by
    cases results with
    | nil => exact absurd rfl h0
    | cons a as => rfl
  have hnc : nc.isEmpty = false := by
    cases nc with
    | nil => simp at h2
    | cons a as => rfl
  unfold classifyGeocodeResults
  rw [hres]
  simp only [Bool.false_eq_true, if_false, h1]
  rw [hnc]
  simp only [Bool.false_eq_true, if_false, h2, h3]

/-! ### Claims -/

/-- C1 (amended): for every candidate list surviving the empty-check whose
country-filtered sequence has `best` as its first exact (non-partial ROOFTOP)
candidate, and whose components extract successfully, `classifyGeocodeResults`
inspects only `best`: it returns the VALIDATED result with the extracted
components when the comparator validates the input against `best`'s formatted
address, and otherwise the CORRECTED result whose alternatives list is exactly
`[best.formatted_address]` — regardless of any other candidates. -/
theorem claim_C1 {results nc rest : List Candidate} {best : Candidate}
    {comps : AddressComponents} (input : Str)
    (h0 : results ≠ [])
    (h1 : filterNonCountry results = .ok nc)
    (h2 : nc.filter isExactCandidate = best :: rest)
    (h3 : extractAddressComponents best.address_components = .ok comps) :
    classifyGeocodeResults results input =
      (if compareAddresses input best.formatted_address = .validated then
        .ok ⟨.VALIDATED, some ⟨best.formatted_address, comps⟩, none, none⟩
      else
        .ok ⟨.CORRECTED, none, some [best.formatted_address], none⟩) :=
  classify_exact_case input h0 h1 h2 h3

/-- C1 witness: the scenario-1 candidate validates against its own formatted
address and yields the VALIDATED outcome with its extracted components. -/
theorem claim_C1_witness :
    classifyGeocodeResults [s1cand] (str "1600 amphitheatre pkwy mountain view ca") =
      .ok ⟨.VALIDATED, some ⟨s1cand.formatted_address,
        ⟨some (str "1600"), some (str "Amphitheatre Pkwy"), some (str "Mountain View"),
         some (str "CA"), some (str "94043")⟩⟩, none, none⟩ := by
  have h := @claim_C1 [s1cand] [s1cand] [] s1cand
    ⟨some (str "1600"), some (str "Amphitheatre Pkwy"),
      some (str "Mountain View"), some (str "CA"), some (str "94043")⟩
    (str "1600 amphitheatre pkwy mountain view ca")
    (by decide) rfl rfl rfl
  rw [h]
  rfl

/-- C1 counterexample: a first exact candidate whose `address_components` is
undefined makes `classifyGeocodeResults` throw (`.error ()`) instead of
returning the CORRECTED outcome the claim promises for a non-validated
comparator verdict. -/
theorem claim_C1_counterexample :
    filterNonCountry [c1bad] = .ok [c1bad] ∧
    List.filter isExactCandidate [c1bad] = [c1bad] ∧
    compareAddresses (str "9 Z Rd") c1bad.formatted_address = .corrected ∧
    classifyGeocodeResults [c1bad] (str "9 Z Rd") = .error () :=
  ⟨rfl, rfl, rfl, rfl⟩

/-- C4 (amended): if the first exact (non-partial ROOFTOP) candidate of the
country-filtered list normalizes identically to the input and its components
extract successfully, `classifyGeocodeResults` returns the VALIDATED
(`Exact`) outcome. -/
theorem claim_C4 {results nc rest : List Candidate} {best : Candidate}
    {comps : AddressComponents} (input : Str)
    (h0 : results ≠ [])
    (h1 : filterNonCountry results = .ok nc)
    (h2 : nc.filter isExactCandidate = best :: rest)
    (h3 : extractAddressComponents best.address_components = .ok comps)
    (h4 : normalize input = normalize best.formatted_address) :
    classifyGeocodeResults results input =
      .ok ⟨.VALIDATED, some ⟨best.formatted_address, comps⟩, none, none⟩ := by
  have hcmp : compareAddresses input best.formatted_address = .validated := by
    unfold compareAddresses
    rw [if_pos h4]
  rw [classify_exact_case input h0 h1 h2 h3, if_pos hcmp]

/-- C4 witness: a single rooftop candidate equal to the input yields
VALIDATED. -/
theorem claim_C4_witness :
    classifyGeocodeResults [c4b] (str "aaa bbb ccc") =
      .ok ⟨.VALIDATED, some ⟨c4b.formatted_address,
        ⟨none, none, none, none, none⟩⟩, none, none⟩ :=
  @claim_C4 [c4b] [c4b] [] c4b ⟨none, none, none, none, none⟩
    (str "aaa bbb ccc") (by decide) rfl rfl rfl rfl

/-- C4 counterexample: the list `[c4a, c4b]` contains a rooftop non-partial
candidate (`c4b`) whose formatted address normalizes identically to the input,
yet `classifyGeocodeResults` returns CORRECTED (built from the first rooftop
candidate `c4a`), not Exact. -/
theorem claim_C4_counterexample :
    c4b ∈ [c4a, c4b] ∧
    isExactCandidate c4b = true ∧
    normalize (str "aaa bbb ccc") = normalize c4b.formatted_address ∧
    classifyGeocodeResults [c4a, c4b] (str "aaa bbb ccc") =
      .ok ⟨.CORRECTED, none, some [str "xxx yyy zzz"], none⟩ :=
  ⟨by decide, rfl, rfl, rfl⟩

/-- C5 (amended): for the typo input `"123 Mian St"` against the scenario-5
candidate, the comparator's word-overlap similarity is `2/7`, which does not
exceed `0.6`, so `classifyGeocodeResults` returns the CORRECTED outcome whose
single alternative is the candidate's formatted address. -/
theorem claim_C5 :
    wordSimilarity (normalize (str "123 Mian St")) (normalize c5cand.formatted_address)
      = 2 / 7 ∧
    ¬ ((0.6 : ℚ) < 2 / 7) ∧
    classifyGeocodeResults [c5cand] (str "123 Mian St") =
      .ok ⟨.CORRECTED, none, some [str "123 Main St, Anytown, CA 90210, USA"], none⟩ := by
  refine ⟨?_, by norm_num, rfl⟩
  rw [show wordSimilarity (normalize (str "123 Mian St"))
      (normalize c5cand.formatted_address) = mkRat 2 7 from rfl]
  rw [Rat.mkRat_eq_div]
  norm_num

/-- C5 counterexample: the word-overlap similarity of the scenario-5 pair does
not exceed the threshold, and the classification outcome is CORRECTED — the
claimed similarity `> 0.6` and `Exact` outcome are both false. -/
theorem claim_C5_counterexample :
    ¬ ((0.6 : ℚ) < wordSimilarity (normalize (str "123 Mian St"))
        (normalize c5cand.formatted_address)) ∧
    classifyGeocodeResults [c5cand] (str "123 Mian St") =
      .ok ⟨.CORRECTED, none, some [str "123 Main St, Anytown, CA 90210, USA"], none⟩ := by
  refine ⟨?_, rfl⟩
  rw [show wordSimilarity (normalize (str "123 Mian St"))
      (normalize c5cand.formatted_address) = mkRat 2 7 from rfl]
  rw [Rat.mkRat_eq_div]
  norm_num

/-- C6: the claim says classification is total on arbitrary candidate data,
but a rooftop non-partial candidate whose `address_components` is undefined
reaches `extractAddressComponents(best.address_components)` (no `|| []` guard
at this call site) and the classifier throws a TypeError, modelled as
`.error ()`. -/
theorem claim_C6_bug :
    classifyGeocodeResults [c6cand] (str "1 A St") = .error () := rfl

/-- C7: whenever `classifyGeocodeResults` returns a CORRECTED result, its
alternatives list is present and non-empty. -/
theorem claim_C7 (results : List Candidate) (input : Str)
    (res : AddressValidationResult)
    (h : classifyGeocodeResults results input = .ok res)
    (hs : res.status = .CORRECTED) :
    ∃ alts, res.possibleMatches = some alts ∧ alts ≠ [] := by
  unfold classifyGeocodeResults at h
  split at h
  · cases h with
    | refl => cases hs
  · split at h
    · cases h
    · split at h
      · cases h with
        | refl => cases hs
      · split at h
        · split at h
          · cases h
          · split at h
            · cases h with
              | refl => cases hs
            · cases h with
              | refl => exact ⟨_, rfl, by simp⟩
        · split at h
          · cases h with
            | refl => cases hs
          · cases h with
            | refl => exact ⟨_, rfl, by simp⟩

/-- C7 witness. -/
theorem claim_C7_witness :
    ∃ alts, (AddressValidationResult.mk .CORRECTED none
      (some [str "123 Main St, Anytown, CA 90210, USA"]) none).possibleMatches =
        some alts ∧ alts ≠ [] :=
  claim_C7 [c5cand] (str "123 Mian St") _ rfl rfl


/-- C3 (amended): given that extraction from `r.address_components || []`
succeeds with `comps`, a candidate is judged country-only exactly when it is a
partial match AND (its `types` contain `"country"` OR its extracted street
number, street name, city and postal code are all falsy — absent or empty);
and whenever every candidate of a non-empty list is judged country-only, the
classifier returns Unverifiable with message `"No precise US match found."`. -/
theorem claim_C3 (r : Candidate) (comps : AddressComponents)
    (hx : extractAddressComponents (some (r.address_components.getD [])) = .ok comps) :
    (isCountryOnlyResult r = .ok true ↔
      r.partial_match = true ∧
        (hasCountryType r = true ∨ lacksStreetDetail comps = true))
    ∧ ∀ (results : List Candidate) (input : Str), results ≠ [] →
        (∀ c ∈ results, isCountryOnlyResult c = .ok true) →
        classifyGeocodeResults results input =
          .ok ⟨.UNVERIFIABLE, none, none, some (str "No precise US match found.")⟩ := by
  constructor
  · unfold isCountryOnlyResult
    cases hp : r.partial_match with
    | false =>
      simp [hp]
    | true =>
      simp only [hp, Bool.not_true, Bool.false_eq_true, if_false, hx]
      simp [Bool.or_eq_true]
  · intro results input h0 hall
    have hf : filterNonCountry results = .ok [] := filterNonCountry_all_true hall
    have hres : results.isEmpty = false := by
      cases results with
      | nil => exact absurd rfl h0
      | cons a as => rfl
    unfold classifyGeocodeResults
    rw [hres]
    simp only [Bool.false_eq_true, if_false, hf]
    rfl

/-- C3 witness: a partial, country-typed candidate is judged country-only,
and a list consisting only of such candidates yields Unverifiable. -/
theorem claim_C3_witness :
    isCountryOnlyResult rCtry = .ok true ∧
    classifyGeocodeResults [rCtry] (str "junk") =
      .ok ⟨.UNVERIFIABLE, none, none, some (str "No precise US match found.")⟩ := by
  constructor
  · exact (claim_C3 rCtry ⟨none, none, none, none, none⟩ rfl).1.mpr
      ⟨rfl, Or.inl rfl⟩
  · exact (claim_C3 rCtry ⟨none, none, none, none, none⟩ rfl).2 [rCtry] (str "junk")
      (by simp) (by
        intro cand hc
        rw [List.mem_singleton] at hc
        rw [hc]
        rfl)

/-- C3 counterexample: a partial candidate that is not country-typed and whose
extracted street number is present (the empty string, hence not absent) is
nevertheless discarded, and a list of only it classifies as Unverifiable —
refuting the claimed "all absent" characterization. -/
theorem claim_C3_counterexample :
    r3.partial_match = true ∧
    hasCountryType r3 = false ∧
    extractAddressComponents (some (r3.address_components.getD [])) =
      .ok ⟨some [], none, none, none, none⟩ ∧
    isCountryOnlyResult r3 = .ok true ∧
    classifyGeocodeResults [r3] (str "x") =
      .ok ⟨.UNVERIFIABLE, none, none, some (str "No precise US match found.")⟩ :=
  ⟨rfl, rfl, rfl, rfl, rfl⟩

/-- C9: provenance — every formatted address in a classification outcome (the
exact match's formatted address, and every element of a CORRECTED result's
alternatives) is the formatted address of some input candidate; and in the
step-4 branch (no exact candidate, some possible candidate) the alternatives
are exactly the formatted addresses of the candidates passing the
possible-match filter, in order. -/
theorem claim_C9 (results : List Candidate) (input : Str) :
    (∀ res, classifyGeocodeResults results input = .ok res →
      (∀ em, res.exactMatch = some em →
        em.formatted_address ∈ results.map Candidate.formatted_address) ∧
      (∀ alts s, res.possibleMatches = some alts → s ∈ alts →
        s ∈ results.map Candidate.formatted_address))
    ∧ (∀ nc : List Candidate, filterNonCountry results = .ok nc → nc ≠ [] →
        nc.filter isExactCandidate = [] →
        ∀ (p : Candidate) (ps : List Candidate),
          nc.filter isPossibleCandidate = p :: ps →
          classifyGeocodeResults results input =
            .ok ⟨.CORRECTED, none,
              some ((p :: ps).map Candidate.formatted_address), none⟩) := by
  constructor
  · intro res h
    unfold classifyGeocodeResults at h
    split at h
    · simp only [Except.ok.injEq] at h
      subst h
      exact ⟨(fun em hem => by cases hem), (fun alts s ha => by cases ha)⟩
    · split at h
      · cases h
      · rename_i nc hnc
        split at h
        · simp only [Except.ok.injEq] at h
          subst h
          exact ⟨(fun em hem => by cases hem), (fun alts s ha => by cases ha)⟩
        · split at h
          · rename_i best tail hfil
            have hbest : best.formatted_address ∈
                results.map Candidate.formatted_address := by
              have hm : best ∈ nc.filter isExactCandidate := by
                rw [hfil]
                exact List.mem_cons_self best tail
              exact List.mem_map_of_mem Candidate.formatted_address
                (filterNonCountry_mem hnc best (List.mem_of_mem_filter hm))
            split at h
            · cases h
            · split at h
              · simp only [Except.ok.injEq] at h
                subst h
                refine ⟨?_, (fun alts s ha => by cases ha)⟩
                intro em hem
                simp only [Option.some.injEq] at hem
                subst hem
                exact hbest
              · simp only [Except.ok.injEq] at h
                subst h
                refine ⟨(fun em hem => by cases hem), ?_⟩
                intro alts s ha hs
                simp only [Option.some.injEq] at ha
                subst ha
                rw [List.mem_singleton] at hs
                rw [hs]
                exact hbest
          · split at h
            · simp only [Except.ok.injEq] at h
              subst h
              exact ⟨(fun em hem => by cases hem), (fun alts s ha => by cases ha)⟩
            · rename_i p ps hpos
              simp only [Except.ok.injEq] at h
              subst h
              refine ⟨(fun em hem => by cases hem), ?_⟩
              intro alts s ha hs
              simp only [Option.some.injEq] at ha
              subst ha
              rcases List.mem_map.mp hs with ⟨cand, hcand, hfc⟩
              rw [← hfc]
              refine List.mem_map_of_mem Candidate.formatted_address ?_
              refine filterNonCountry_mem hnc cand ?_
              refine List.mem_of_mem_filter (p := isPossibleCandidate) ?_
              rw [hpos]
              exact hcand
  · intro nc hnc hncne hfil p ps hpos
    have h0 : results ≠ [] := by
      intro he
      subst he
      simp only [filterNonCountry, Except.ok.injEq] at hnc
      exact hncne hnc.symm
    have hres : results.isEmpty = false := by
      cases results with
      | nil => exact absurd rfl h0
      | cons a as => rfl
    have hncE : nc.isEmpty = false := by
      cases nc with
      | nil => exact absurd rfl hncne
      | cons a as => rfl
    unfold classifyGeocodeResults
    rw [hres]
    simp only [Bool.false_eq_true, if_false, hnc]
    rw [hncE]
    simp only [Bool.false_eq_true, if_false, hfil, hpos]

/-- C9 witness: scenario 4 — two partial APPROXIMATE candidates survive the
filter, classification is CORRECTED with both formatted addresses in order,
and each alternative traces back to an input candidate. -/
theorem claim_C9_witness :
    classifyGeocodeResults [cApp1, cApp2] (str "123 Main St Springfield") =
      .ok ⟨.CORRECTED, none,
        some [cApp1.formatted_address, cApp2.formatted_address], none⟩ ∧
    cApp1.formatted_address ∈ [cApp1, cApp2].map Candidate.formatted_address := by
  have h2 := (claim_C9 [cApp1, cApp2] (str "123 Main St Springfield")).2
    [cApp1, cApp2] rfl (by simp) rfl cApp1 [cApp2] rfl
  refine ⟨h2, ?_⟩
  exact ((claim_C9 [cApp1, cApp2] (str "123 Main St Springfield")).1 _ h2).2
    [cApp1.formatted_address, cApp2.formatted_address] cApp1.formatted_address
    rfl (by simp)

/-- C10: a non-partial candidate is never judged country-only (even when
country-typed with no detail components), and a single such APPROXIMATE
candidate formatted `"United States"` classifies as CORRECTED with that
formatted address as sole alternative, not Unverifiable. -/
theorem claim_C10 :
    (∀ r : Candidate, r.partial_match = false → isCountryOnlyResult r = .ok false) ∧
    classifyGeocodeResults [cUS] (str "asdfjkl") =
      .ok ⟨.CORRECTED, none, some [str "United States"], none⟩ := by
  refine ⟨?_, rfl⟩
  intro r h
  unfold isCountryOnlyResult
  rw [h]
  rfl

/-- C10 witness: the concrete non-partial country candidate is not judged
country-only. -/
theorem claim_C10_witness : isCountryOnlyResult cUS = .ok false :=
  claim_C10.1 cUS rfl

/-- Word set of a normalized string, as the spec describes it: the set of
space-separated tokens. -/
def wordFinset (s : Str) : Finset Str := (splitOnSp s).toFinset

/-- `split(" ")` never returns an empty array. -/
theorem splitOnSp_ne_nil (l : Str) : splitOnSp l ≠ [] := by
  induction l with
  | nil => simp [splitOnSp]
  | cons c cs ih =>
    unfold splitOnSp
    by_cases h : c = 32
    · simp [h]
    · rw [if_neg h]
      cases hs : splitOnSp cs with
      | nil => simp
      | cons w ws => simp

/-- The source's distinct-common-word count is the cardinality of the word-set
intersection. -/
theorem dedup_filter_length (l1 l2 : List Str) :
    (l1.dedup.filter (fun w => decide (w ∈ l2))).length =
      (l1.toFinset ∩ l2.toFinset).card := by
  have hnd : (l1.dedup.filter (fun w => decide (w ∈ l2))).Nodup :=
    List.Nodup.filter _ (List.nodup_dedup l1)
  have hfin : (l1.dedup.filter (fun w => decide (w ∈ l2))).toFinset =
      l1.toFinset ∩ l2.toFinset := by
    ext a
    simp [List.mem_filter, List.mem_dedup]
  rw [← hfin, List.card_toFinset, List.Nodup.dedup hnd]

theorem toFinset_dedup_eq (l : List Str) : l.dedup.toFinset = l.toFinset := by
  ext a
  simp [List.mem_dedup]

/-- C2: `compareAddresses` validates exactly when the two normalized strings
are equal, or the word-overlap similarity — the cardinality of the
intersection of the two word sets divided by the larger set size — strictly
exceeds `0.6`; in every other case it returns `corrected`. -/
theorem claim_C2 (input cand : Str) :
    (compareAddresses input cand = .validated ↔
      (normalize input = normalize cand ∨
        (0.6 : ℚ) <
          ((wordFinset (normalize input) ∩ wordFinset (normalize cand)).card : ℚ) /
            (max (wordFinset (normalize input)).card
              (wordFinset (normalize cand)).card : ℚ)))
    ∧ (compareAddresses input cand = .validated ∨
        compareAddresses input cand = .corrected) := by
  have hsim : wordSimilarity (normalize input) (normalize cand) =
      ((wordFinset (normalize input) ∩ wordFinset (normalize cand)).card : ℚ) /
        (max (wordFinset (normalize input)).card
          (wordFinset (normalize cand)).card : ℚ) := by
    simp only [wordSimilarity, wordFinset]
    rw [dedup_filter_length, Rat.mkRat_eq_div]
    rw [show ((splitOnSp (normalize input)).dedup.length =
      (splitOnSp (normalize input)).toFinset.card) from (List.card_toFinset _).symm]
    rw [show ((splitOnSp (normalize cand)).dedup.length =
      (splitOnSp (normalize cand)).toFinset.card) from (List.card_toFinset _).symm]
    rw [toFinset_dedup_eq, Nat.cast_max, Int.cast_natCast]
  have h35 : (mkRat 3 5 : ℚ) = 0.6 := by
    rw [Rat.mkRat_eq_div]
    norm_num
  constructor
  · unfold compareAddresses
    by_cases heq : normalize input = normalize cand
    · simp [heq]
    · rw [if_neg heq]
      by_cases hlt : mkRat 3 5 < wordSimilarity (normalize input) (normalize cand)
      · rw [if_pos hlt]
        simp only [true_iff]
        right
        rw [← hsim, ← h35]
        exact hlt
      · rw [if_neg hlt]
        constructor
        · intro hcon
          cases hcon
        · intro hor
          rcases hor with h | h
          · exact absurd h heq
          · rw [← hsim, ← h35] at h
            exact absurd h hlt
  · unfold compareAddresses
    by_cases heq : normalize input = normalize cand
    · rw [if_pos heq]
      exact Or.inl rfl
    · rw [if_neg heq]
      by_cases hlt : mkRat 3 5 < wordSimilarity (normalize input) (normalize cand)
      · rw [if_pos hlt]
        exact Or.inl rfl
      · rw [if_neg hlt]
        exact Or.inr rfl


/-! ### Word-run machinery for the idempotence of `normalize` (C8)

`replaceWord` is a scanner; to reason about repeated normalization we relate
it to `applyWordMap`, which maps every maximal run of word characters through
a function and keeps the separators. -/

/-- The word boundary holds in front of `l`: `l` is empty or starts with a
non-word code point. -/
def headFails (p : Nat → Bool) : Str → Prop
  | [] => True
  | d :: _ => p d = false

theorem headFails_of_cons {p : Nat → Bool} {d : Nat} {ds : Str}
    (h : p d = false) : headFails p (d :: ds) := h

theorem dropWhile_length_le (p : Nat → Bool) (l : Str) :
    (l.dropWhile p).length ≤ l.length := by
  induction l with
  | nil => exact Nat.le_refl 0
  | cons a as ih =>
    rw [List.dropWhile_cons]
    split
    · exact Nat.le_trans ih (Nat.le_succ as.length)
    · exact Nat.le_refl (a :: as).length

theorem headFails_dropWhile (p : Nat → Bool) (l : Str) :
    headFails p (l.dropWhile p) := by
  induction l with
  | nil => trivial
  | cons a as ih =>
    rw [List.dropWhile_cons]
    split
    · exact ih
    · rename_i h
      exact headFails_of_cons (by simpa using h)

/-- `dropWhile` does nothing when the boundary already holds. -/
theorem dropWhile_of_headFails {p : Nat → Bool} {l : Str}
    (h : headFails p l) : l.dropWhile p = l := by
  cases l with
  | nil => rfl
  | cons d ds => exact List.dropWhile_cons_of_neg (by simp [show p d = false from h])

/-- `takeWhile` stops at a boundary: splitting off an all-satisfying prefix. -/
theorem takeWhile_append_all {p : Nat → Bool} {u : Str} (v : Str)
    (hu : ∀ c ∈ u, p c = true) (hv : headFails p v) :
    (u ++ v).takeWhile p = u ∧ (u ++ v).dropWhile p = v := by
  induction u with
  | nil =>
    refine ⟨?_, ?_⟩
    · cases v with
      | nil => rfl
      | cons d ds => exact List.takeWhile_cons_of_neg (by simp [show p d = false from hv])
    · exact dropWhile_of_headFails hv
  | cons a u2 ih =>
    have ha : p a = true := hu a (List.mem_cons_self a u2)
    have h2 := ih (fun c hc => hu c (List.mem_cons_of_mem a hc))
    refine ⟨?_, ?_⟩
    · rw [List.cons_append, List.takeWhile_cons_of_pos ha, h2.1]
    · rw [List.cons_append, List.dropWhile_cons_of_pos ha, h2.2]

/-- A trailing separator block is invisible to `takeWhile`/`dropWhile`. -/
theorem takeWhile_append_of_headFails {p : Nat → Bool} (u : Str) {v : Str}
    (hv : headFails p v) :
    (u ++ v).takeWhile p = u.takeWhile p ∧
      (u ++ v).dropWhile p = u.dropWhile p ++ v := by
  induction u with
  | nil =>
    refine ⟨?_, ?_⟩
    · cases v with
      | nil => rfl
      | cons d ds => exact List.takeWhile_cons_of_neg (by simp [show p d = false from hv])
    · rw [List.nil_append, List.dropWhile_nil, List.nil_append]
      exact dropWhile_of_headFails hv
  | cons a u2 ih =>
    by_cases ha : p a = true
    · refine ⟨?_, ?_⟩
      · rw [List.cons_append, List.takeWhile_cons_of_pos ha,
          List.takeWhile_cons_of_pos ha, ih.1]
      · rw [List.cons_append, List.dropWhile_cons_of_pos ha,
          List.dropWhile_cons_of_pos ha, ih.2]
    · refine ⟨?_, ?_⟩
      · rw [List.cons_append, List.takeWhile_cons_of_neg ha,
          List.takeWhile_cons_of_neg ha]
      · rw [List.cons_append, List.dropWhile_cons_of_neg ha,
          List.dropWhile_cons_of_neg ha, List.cons_append]

/-- Map every maximal run of word characters through `f`, keeping the
separator characters in place. -/
def applyWordMap (f : Str → Str) : Str → Str
  | [] => []
  | c :: cs =>
    if isWordChar c then
      f (c :: cs.takeWhile isWordChar) ++ applyWordMap f (cs.dropWhile isWordChar)
    else
      c :: applyWordMap f cs
termination_by l => l.length
decreasing_by
  all_goals simp only [List.length_cons]
  · exact Nat.lt_succ_of_le (dropWhile_length_le isWordChar _)
  · exact Nat.lt_succ_self _

theorem applyWordMap_nil (f : Str → Str) : applyWordMap f [] = [] := by
  rw [applyWordMap]

theorem applyWordMap_cons_word (f : Str → Str) {c : Nat} (cs : Str)
    (h : isWordChar c = true) :
    applyWordMap f (c :: cs) =
      f (c :: cs.takeWhile isWordChar) ++ applyWordMap f (cs.dropWhile isWordChar) := by
  rw [applyWordMap, if_pos h]

theorem applyWordMap_cons_sep (f : Str → Str) {c : Nat} (cs : Str)
    (h : isWordChar c = false) :
    applyWordMap f (c :: cs) = c :: applyWordMap f cs := by
  rw [applyWordMap, if_neg (by simp [h])]


/-! ### The scanner agrees with the run mapper -/

theorem rep_cons_nomatch (w0 : Nat) (wt r : Str) {c : Nat} {cs : Str} {b : Bool}
    (h : (!b && decide ((c :: cs).take (wt.length + 1) = w0 :: wt) &&
      boundOk (wt.length + 1) (c :: cs)) = false) :
    rep w0 wt r (c :: cs) none b = c :: rep w0 wt r cs none (isWordChar c) := by
  simp only [rep, h]
  simp

theorem rep_cons_match_nil (w0 : Nat) (r : Str) {c : Nat} {cs : Str}
    (h : (!false && decide ((c :: cs).take 1 = [w0]) && boundOk 1 (c :: cs)) = true) :
    rep w0 [] r (c :: cs) none false = r ++ rep w0 [] r cs none (isWordChar c) := by
  simp only [rep]
  rw [show (List.length ([] : Str) + 1) = 1 from rfl]
  rw [show ([w0] : Str) = w0 :: [] from rfl] at h
  simp only [h]
  simp

theorem rep_cons_match_cons (w0 w1 : Nat) (wrest : Str) (r : Str) {c : Nat} {cs : Str}
    (h : (!false && decide ((c :: cs).take ((w1 :: wrest).length + 1) = w0 :: w1 :: wrest) &&
      boundOk ((w1 :: wrest).length + 1) (c :: cs)) = true) :
    rep w0 (w1 :: wrest) r (c :: cs) none false =
      r ++ rep w0 (w1 :: wrest) r cs (some (w1 :: wrest)) true := by
  simp only [rep, h]
  simp

/-- While consuming the matched word, the scanner drops it and resumes after
it with a word character on its left. -/
theorem rep_skip (w0 : Nat) (wt r : Str) :
    ∀ (u cs : Str) (b : Bool), u ≠ [] → (∀ c ∈ u, isWordChar c = true) →
      rep w0 wt r (u ++ cs) (some u) b = rep w0 wt r cs none true := by
  intro u
  induction u with
  | nil =>
    intro cs b h _
    exact absurd rfl h
  | cons a u2 ih =>
    intro cs b _ hall
    cases u2 with
    | nil =>
      show rep w0 wt r cs none (isWordChar a) = rep w0 wt r cs none true
      rw [hall a (List.mem_cons_self a [])]
    | cons a2 u3 =>
      show rep w0 wt r ((a2 :: u3) ++ cs) (some (a2 :: u3)) true = _
      exact ih cs true (by simp) (fun c hc => hall c (List.mem_cons_of_mem a hc))

/-- At a word boundary the remembered look-behind flag is irrelevant. -/
theorem rep_none_boundary (w0 : Nat) (wt r : Str) {l : Str} (b : Bool)
    (hw0 : isWordChar w0 = true) (hl : headFails isWordChar l) :
    rep w0 wt r l none b = rep w0 wt r l none false := by
  cases l with
  | nil => rfl
  | cons d ds =>
    have hd : isWordChar d = false := hl
    have hne : ¬ ((d :: ds).take (wt.length + 1) = w0 :: wt) := by
      rw [List.take_succ_cons]
      intro h
      injection h with h1 h2
      rw [h1, hw0] at hd
      cases hd
    have hcond : ∀ b2 : Bool, (!b2 && decide ((d :: ds).take (wt.length + 1) = w0 :: wt) &&
        boundOk (wt.length + 1) (d :: ds)) = false := by
      intro b2
      rw [decide_eq_false hne]
      simp
    rw [rep_cons_nomatch w0 wt r (hcond b), rep_cons_nomatch w0 wt r (hcond false)]

/-- With a word character on its left the scanner copies word characters
verbatim. -/
theorem rep_word_walk (w0 : Nat) (wt r : Str) :
    ∀ (u cs : Str), (∀ x ∈ u, isWordChar x = true) →
      rep w0 wt r (u ++ cs) none true = u ++ rep w0 wt r cs none true := by
  intro u
  induction u with
  | nil =>
    intro cs _
    rfl
  | cons a u2 ih =>
    intro cs hu
    have hcond : (!true && decide ((a :: (u2 ++ cs)).take (wt.length + 1) = w0 :: wt) &&
        boundOk (wt.length + 1) (a :: (u2 ++ cs))) = false := by simp
    rw [List.cons_append, rep_cons_nomatch w0 wt r hcond,
      hu a (List.mem_cons_self a u2), ih cs (fun x hx => hu x (List.mem_cons_of_mem a hx))]
    rfl

/-- A whole-word match at the start of a maximal word run forces the run to be
exactly the matched word. -/
theorem match_imp_run_eq {w run rest : Str}
    (hw_all : ∀ c ∈ w, isWordChar c = true)
    (hrun_all : ∀ c ∈ run, isWordChar c = true)
    (hrest : headFails isWordChar rest)
    (htake : (run ++ rest).take w.length = w)
    (hbound : boundOk w.length (run ++ rest) = true) :
    run = w := by
  induction w generalizing run with
  | nil =>
    cases run with
    | nil => rfl
    | cons d run2 =>
      exfalso
      have hd : isWordChar d = true := hrun_all d (List.mem_cons_self d run2)
      unfold boundOk at hbound
      rw [List.length_nil, List.drop_zero, List.cons_append] at hbound
      simp [hd] at hbound
  | cons a w2 ih =>
    cases run with
    | nil =>
      exfalso
      rw [List.nil_append, List.length_cons] at htake
      cases rest with
      | nil => simp at htake
      | cons x xs =>
        rw [List.take_succ_cons] at htake
        injection htake with h1 h2
        have hx : isWordChar x = false := hrest
        rw [h1, hw_all a (List.mem_cons_self a w2)] at hx
        cases hx
    | cons b run2 =>
      rw [List.cons_append, List.length_cons, List.take_succ_cons] at htake
      injection htake with h1 h2
      have hbound2 : boundOk w2.length (run2 ++ rest) = true := by
        unfold boundOk at hbound ⊢
        rw [List.length_cons, List.cons_append, List.drop_succ_cons] at hbound
        exact hbound
      rw [h1, ih (fun c hc => hw_all c (List.mem_cons_of_mem a hc))
        (fun c hc => hrun_all c (List.mem_cons_of_mem b hc)) h2 hbound2]

/-- `applyWordMap` peels one whole word run off the front. -/
theorem applyWordMap_append_word (f : Str → Str) {u v : Str} (hu_ne : u ≠ [])
    (hu : ∀ c ∈ u, isWordChar c = true) (hv : headFails isWordChar v) :
    applyWordMap f (u ++ v) = f u ++ applyWordMap f v := by
  cases u with
  | nil => exact absurd rfl hu_ne
  | cons a u2 =>
    have ha : isWordChar a = true := hu a (List.mem_cons_self a u2)
    rw [List.cons_append, applyWordMap_cons_word f _ ha]
    have h2 := takeWhile_append_all (p := isWordChar) (u := u2) v
      (fun c hc => hu c (List.mem_cons_of_mem a hc)) hv
    rw [h2.1, h2.2]

/-- The global whole-word scanner is exactly the run mapper that replaces
runs equal to the word. -/
theorem rep_eq_applyWordMap (w0 : Nat) (wt r : Str)
    (hw : ∀ c ∈ w0 :: wt, isWordChar c = true) (l : Str) :
    rep w0 wt r l none false =
      applyWordMap (fun v => if v = w0 :: wt then r else v) l := by
  generalize hn : l.length = n
  induction n using Nat.strong_induction_on generalizing l with
  | _ n ih =>
  subst hn
  cases l with
  | nil =>
    rw [applyWordMap_nil]
    rfl
  | cons c cs =>
    have hw0 : isWordChar w0 = true := hw w0 (List.mem_cons_self w0 wt)
    by_cases hc : isWordChar c = true
    case neg =>
      have hc2 : isWordChar c = false := by simpa using hc
      have hne : ¬ ((c :: cs).take (wt.length + 1) = w0 :: wt) := by
        rw [List.take_succ_cons]
        intro h
        injection h with h1 h2
        rw [h1, hw0] at hc2
        cases hc2
      have hcond : (!false && decide ((c :: cs).take (wt.length + 1) = w0 :: wt) &&
          boundOk (wt.length + 1) (c :: cs)) = false := by
        rw [decide_eq_false hne]
        simp
      rw [rep_cons_nomatch w0 wt r hcond, applyWordMap_cons_sep _ _ hc2, hc2]
      rw [ih cs.length (by simp) cs rfl]
    case pos =>
      have hrun_all : ∀ x ∈ c :: cs.takeWhile isWordChar, isWordChar x = true := by
        intro x hx
        rcases List.mem_cons.mp hx with h | h
        · rw [h]; exact hc
        · exact List.mem_takeWhile_imp h
      have hrest : headFails isWordChar (cs.dropWhile isWordChar) :=
        headFails_dropWhile isWordChar cs
      have hsplit : c :: cs = (c :: cs.takeWhile isWordChar) ++ cs.dropWhile isWordChar := by
        rw [List.cons_append, List.takeWhile_append_dropWhile]
      have hrest_len : (cs.dropWhile isWordChar).length < (c :: cs).length := by
        have h := dropWhile_length_le isWordChar cs
        simp only [List.length_cons]
        omega
      by_cases hrw : c :: cs.takeWhile isWordChar = w0 :: wt
      case pos =>
        have hlen : wt.length + 1 = (w0 :: wt).length := rfl
        have htake : (c :: cs).take (wt.length + 1) = w0 :: wt := by
          conv_lhs => rw [hsplit, hrw]
          rw [hlen]
          exact List.take_left (w0 :: wt) (cs.dropWhile isWordChar)
        have hboundOk : boundOk (wt.length + 1) (c :: cs) = true := by
          unfold boundOk
          conv_lhs => rw [hsplit, hrw]
          rw [hlen, List.drop_left]
          cases hr2 : cs.dropWhile isWordChar with
          | nil => rfl
          | cons d ds =>
            rw [hr2] at hrest
            have hd : isWordChar d = false := hrest
            simp [hd]
        have hcond : (!false && decide ((c :: cs).take (wt.length + 1) = w0 :: wt) &&
            boundOk (wt.length + 1) (c :: cs)) = true := by
          simp [htake, hboundOk]
        rw [applyWordMap_cons_word _ _ hc, if_pos hrw]
        cases hwt : wt with
        | nil =>
          subst hwt
          have htw : cs.takeWhile isWordChar = [] := (List.cons_eq_cons.mp hrw).2
          have hdw : cs.dropWhile isWordChar = cs := by
            have h := List.takeWhile_append_dropWhile isWordChar cs
            rw [htw] at h
            simpa using h
          rw [rep_cons_match_nil w0 r (by simpa using hcond)]
          rw [hc, hdw]
          have hfcs : headFails isWordChar cs := by
            rw [← hdw]
            exact hrest
          rw [rep_none_boundary w0 [] r true hw0 hfcs]
          rw [ih cs.length (by simp) cs rfl]
        | cons w1 wrest =>
          subst hwt
          have htw : cs.takeWhile isWordChar = w1 :: wrest := (List.cons_eq_cons.mp hrw).2
          have hcs : cs = (w1 :: wrest) ++ cs.dropWhile isWordChar := by
            conv_lhs => rw [← List.takeWhile_append_dropWhile isWordChar cs]
            rw [htw]
          rw [rep_cons_match_cons w0 w1 wrest r (by simpa using hcond)]
          congr 1
          conv_lhs => rw [hcs]
          rw [rep_skip w0 (w1 :: wrest) r (w1 :: wrest) (cs.dropWhile isWordChar) true
            (by simp) (fun x hx => hw x (List.mem_cons_of_mem w0 hx))]
          rw [rep_none_boundary w0 (w1 :: wrest) r true hw0 hrest]
          rw [ih (cs.dropWhile isWordChar).length hrest_len _ rfl]
      case neg =>
        have hcond : (!false && decide ((c :: cs).take (wt.length + 1) = w0 :: wt) &&
            boundOk (wt.length + 1) (c :: cs)) = false := by
          cases hdec : decide ((c :: cs).take (wt.length + 1) = w0 :: wt) with
          | false => simp [hdec]
          | true =>
            cases hbo : boundOk (wt.length + 1) (c :: cs) with
            | false => simp [hbo]
            | true =>
              exfalso
              apply hrw
              refine match_imp_run_eq hw hrun_all hrest ?_ ?_
              · rw [← hsplit]
                rw [show (w0 :: wt).length = wt.length + 1 from rfl]
                exact of_decide_eq_true hdec
              · rw [← hsplit]
                rw [show (w0 :: wt).length = wt.length + 1 from rfl]
                exact hbo
        rw [applyWordMap_cons_word _ _ hc, if_neg hrw]
        rw [rep_cons_nomatch w0 wt r hcond, hc]
        rw [List.cons_append]
        refine congrArg (List.cons c) ?_
        conv_lhs => rw [show cs = cs.takeWhile isWordChar ++ cs.dropWhile isWordChar from
          (List.takeWhile_append_dropWhile isWordChar cs).symm]
        rw [rep_word_walk w0 wt r (cs.takeWhile isWordChar) (cs.dropWhile isWordChar)
          (fun x hx => List.mem_takeWhile_imp hx)]
        rw [rep_none_boundary w0 wt r true hw0 hrest]
        rw [ih (cs.dropWhile isWordChar).length hrest_len _ rfl]


/-! ### Composing run mappers -/

/-- A run transformer sending non-empty all-word-character runs to non-empty
all-word-character strings. -/
def WordPreserving (g : Str → Str) : Prop :=
  ∀ v, v ≠ [] → (∀ c ∈ v, isWordChar c = true) →
    (g v ≠ [] ∧ ∀ c ∈ g v, isWordChar c = true)

theorem WordPreserving.comp2 {f g : Str → Str} (hf : WordPreserving f)
    (hg : WordPreserving g) : WordPreserving (fun v => f (g v)) := by
  intro v hv hva
  exact hf (g v) (hg v hv hva).1 (hg v hv hva).2

theorem headFails_applyWordMap (f : Str → Str) {l : Str}
    (hl : headFails isWordChar l) : headFails isWordChar (applyWordMap f l) := by
  cases l with
  | nil =>
    rw [applyWordMap_nil]
    trivial
  | cons d ds =>
    have hd : isWordChar d = false := hl
    rw [applyWordMap_cons_sep f ds hd]
    exact headFails_of_cons hd

theorem applyWordMap_comp {f g : Str → Str} (hg : WordPreserving g) (l : Str) :
    applyWordMap f (applyWordMap g l) = applyWordMap (fun v => f (g v)) l := by
  generalize hn : l.length = n
  induction n using Nat.strong_induction_on generalizing l with
  | _ n ih =>
  subst hn
  cases l with
  | nil => rw [applyWordMap_nil, applyWordMap_nil, applyWordMap_nil]
  | cons c cs =>
    by_cases hc : isWordChar c = true
    · have hrun_all : ∀ x ∈ c :: cs.takeWhile isWordChar, isWordChar x = true := by
        intro x hx
        rcases List.mem_cons.mp hx with h | h
        · rw [h]; exact hc
        · exact List.mem_takeWhile_imp h
      have hrest := headFails_dropWhile isWordChar cs
      have hrest_len : (cs.dropWhile isWordChar).length < (c :: cs).length := by
        have h2 := dropWhile_length_le isWordChar cs
        simp only [List.length_cons]
        omega
      have hgp := hg (c :: cs.takeWhile isWordChar) (by simp) hrun_all
      rw [applyWordMap_cons_word g _ hc]
      rw [applyWordMap_append_word f hgp.1 hgp.2 (headFails_applyWordMap g hrest)]
      rw [applyWordMap_cons_word _ _ hc]
      rw [ih (cs.dropWhile isWordChar).length hrest_len _ rfl]
    · have hc2 : isWordChar c = false := by simpa using hc
      rw [applyWordMap_cons_sep g _ hc2, applyWordMap_cons_sep f _ hc2,
        applyWordMap_cons_sep _ _ hc2, ih cs.length (by simp) cs rfl]

theorem applyWordMap_congr {f g : Str → Str}
    (h : ∀ v, v ≠ [] → (∀ c ∈ v, isWordChar c = true) → f v = g v) (l : Str) :
    applyWordMap f l = applyWordMap g l := by
  generalize hn : l.length = n
  induction n using Nat.strong_induction_on generalizing l with
  | _ n ih =>
  subst hn
  cases l with
  | nil => rw [applyWordMap_nil, applyWordMap_nil]
  | cons c cs =>
    by_cases hc : isWordChar c = true
    · have hrun_all : ∀ x ∈ c :: cs.takeWhile isWordChar, isWordChar x = true := by
        intro x hx
        rcases List.mem_cons.mp hx with hx2 | hx2
        · rw [hx2]; exact hc
        · exact List.mem_takeWhile_imp hx2
      have hrest_len : (cs.dropWhile isWordChar).length < (c :: cs).length := by
        have h2 := dropWhile_length_le isWordChar cs
        simp only [List.length_cons]
        omega
      rw [applyWordMap_cons_word f _ hc, applyWordMap_cons_word g _ hc]
      rw [h _ (by simp) hrun_all, ih (cs.dropWhile isWordChar).length hrest_len _ rfl]
    · have hc2 : isWordChar c = false := by simpa using hc
      rw [applyWordMap_cons_sep f _ hc2, applyWordMap_cons_sep g _ hc2,
        ih cs.length (by simp) cs rfl]

theorem applyWordMap_sep_front (f : Str → Str) (u v : Str) :
    (∀ c ∈ u, isWordChar c = false) →
      applyWordMap f (u ++ v) = u ++ applyWordMap f v := by
  induction u with
  | nil => intro _; rfl
  | cons a u2 ih =>
    intro hu
    rw [List.cons_append, applyWordMap_cons_sep f _ (hu a (List.mem_cons_self a u2)),
      ih (fun c hc => hu c (List.mem_cons_of_mem a hc))]
    rfl

theorem applyWordMap_all_sep (f : Str → Str) (u : Str)
    (hu : ∀ c ∈ u, isWordChar c = false) : applyWordMap f u = u := by
  have h := applyWordMap_sep_front f u [] hu
  simpa [applyWordMap_nil] using h

theorem applyWordMap_append_sep (f : Str → Str) (d : Str) {e : Str}
    (he : ∀ c ∈ e, isWordChar c = false) :
    applyWordMap f (d ++ e) = applyWordMap f d ++ e := by
  generalize hn : d.length = n
  induction n using Nat.strong_induction_on generalizing d with
  | _ n ih =>
  subst hn
  cases d with
  | nil =>
    rw [List.nil_append, applyWordMap_nil, List.nil_append]
    exact applyWordMap_all_sep f e he
  | cons c cs =>
    by_cases hc : isWordChar c = true
    · have hfe : headFails isWordChar e := by
        cases e with
        | nil => trivial
        | cons x xs => exact headFails_of_cons (he x (List.mem_cons_self x xs))
      have htd := takeWhile_append_of_headFails (p := isWordChar) cs hfe
      have hrest_len : (cs.dropWhile isWordChar).length < (c :: cs).length := by
        have h2 := dropWhile_length_le isWordChar cs
        simp only [List.length_cons]
        omega
      rw [List.cons_append, applyWordMap_cons_word f _ hc, htd.1, htd.2]
      rw [applyWordMap_cons_word f _ hc]
      rw [ih (cs.dropWhile isWordChar).length hrest_len _ rfl]
      rw [List.append_assoc]
    · have hc2 : isWordChar c = false := by simpa using hc
      rw [List.cons_append, applyWordMap_cons_sep f _ hc2, applyWordMap_cons_sep f _ hc2,
        ih cs.length (by simp) cs rfl, List.cons_append]

/-! ### The four abbreviation replacements as one run transformer -/

/-- Replace a run equal to `w` by `r`. -/
def fWord (w r v : Str) : Str := if v = w then r else v

/-- The compound effect of the four abbreviation replacements on a single
word run. -/
def abbrevF (v : Str) : Str :=
  fWord (str "mountain") (str "mtn")
    (fWord (str "avenue") (str "ave")
      (fWord (str "street") (str "st")
        (fWord (str "road") (str "rd") v)))

theorem replaceWord_eq_awm {w r : Str} (hw_ne : w ≠ [])
    (hw : ∀ c ∈ w, isWordChar c = true) (l : Str) :
    replaceWord w r l = applyWordMap (fun v => fWord w r v) l := by
  cases w with
  | nil => exact absurd rfl hw_ne
  | cons w0 wt =>
    show rep w0 wt r l none false = _
    exact rep_eq_applyWordMap w0 wt r hw l

theorem fWord_wordPreserving {w r : Str} (hr_ne : r ≠ [])
    (hr : ∀ c ∈ r, isWordChar c = true) : WordPreserving (fun v => fWord w r v) := by
  intro v hv hva
  simp only [fWord]
  by_cases h : v = w
  · rw [if_pos h]
    exact ⟨hr_ne, hr⟩
  · rw [if_neg h]
    exact ⟨hv, hva⟩

/-- The four abbreviation passes of `normalize` amount to one run map. -/
theorem replace_chain_eq (l : Str) :
    replaceWord (str "mountain") (str "mtn")
      (replaceWord (str "avenue") (str "ave")
        (replaceWord (str "street") (str "st")
          (replaceWord (str "road") (str "rd") l))) =
    applyWordMap abbrevF l := by
  rw [replaceWord_eq_awm (w := str "road") (by decide) (by decide) l]
  rw [replaceWord_eq_awm (w := str "street") (by decide) (by decide)]
  rw [replaceWord_eq_awm (w := str "avenue") (by decide) (by decide)]
  rw [replaceWord_eq_awm (w := str "mountain") (by decide) (by decide)]
  rw [applyWordMap_comp (fWord_wordPreserving (w := str "avenue") (r := str "ave")
    (by decide) (by decide))]
  rw [applyWordMap_comp (fWord_wordPreserving (w := str "street") (r := str "st")
    (by decide) (by decide))]
  rw [applyWordMap_comp (fWord_wordPreserving (w := str "road") (r := str "rd")
    (by decide) (by decide))]
  rfl

/-- `abbrevF` as a first-match table. -/
theorem abbrevF_spec (v : Str) :
    abbrevF v =
      if v = str "road" then str "rd"
      else if v = str "street" then str "st"
      else if v = str "avenue" then str "ave"
      else if v = str "mountain" then str "mtn"
      else v := by
  by_cases h1 : v = str "road"
  · subst h1
    decide
  · by_cases h2 : v = str "street"
    · subst h2
      decide
    · by_cases h3 : v = str "avenue"
      · subst h3
        decide
      · by_cases h4 : v = str "mountain"
        · subst h4
          decide
        · unfold abbrevF fWord
          simp only [if_neg h1, if_neg h2, if_neg h3, if_neg h4]

theorem abbrevF_idem (v : Str) : abbrevF (abbrevF v) = abbrevF v := by
  by_cases h1 : v = str "road"
  · subst h1
    decide
  · by_cases h2 : v = str "street"
    · subst h2
      decide
    · by_cases h3 : v = str "avenue"
      · subst h3
        decide
      · by_cases h4 : v = str "mountain"
        · subst h4
          decide
        · have hv : abbrevF v = v := by
            rw [abbrevF_spec v, if_neg h1, if_neg h2, if_neg h3, if_neg h4]
          rw [hv, hv]

theorem abbrevF_wordPreserving : WordPreserving abbrevF := by
  intro v hv hva
  rw [abbrevF_spec v]
  by_cases h1 : v = str "road"
  · rw [if_pos h1]
    exact ⟨by decide, by decide⟩
  · rw [if_neg h1]
    by_cases h2 : v = str "street"
    · rw [if_pos h2]
      exact ⟨by decide, by decide⟩
    · rw [if_neg h2]
      by_cases h3 : v = str "avenue"
      · rw [if_pos h3]
        exact ⟨by decide, by decide⟩
      · rw [if_neg h3]
        by_cases h4 : v = str "mountain"
        · rw [if_pos h4]
          exact ⟨by decide, by decide⟩
        · rw [if_neg h4]
          exact ⟨hv, hva⟩

theorem applyWordMap_abbrevF_idem (l : Str) :
    applyWordMap abbrevF (applyWordMap abbrevF l) = applyWordMap abbrevF l := by
  rw [applyWordMap_comp abbrevF_wordPreserving l]
  exact applyWordMap_congr (fun v hv hva => abbrevF_idem v) l


/-! ### Whitespace collapsing commutes with the run mapper -/

theorem word_not_space {c : Nat} (h : isWordChar c = true) : isSpaceChar c = false := by
  simp only [isWordChar, decide_eq_true_eq] at h
  simp only [isSpaceChar, decide_eq_false_iff_not]
  omega

theorem colGo_cons_space_false {c : Nat} (cs : Str) (h : isSpaceChar c = true) :
    colGo (c :: cs) false = 32 :: colGo cs true := by
  simp only [colGo, h]
  simp

theorem colGo_cons_space_true {c : Nat} (cs : Str) (h : isSpaceChar c = true) :
    colGo (c :: cs) true = colGo cs true := by
  simp only [colGo, h]
  simp

theorem colGo_cons_nonspace {c : Nat} (cs : Str) (b : Bool) (h : isSpaceChar c = false) :
    colGo (c :: cs) b = c :: colGo cs false := by
  simp only [colGo, h]
  simp

theorem colGo_nonspace_front :
    ∀ (u v : Str) (b : Bool), (∀ c ∈ u, isSpaceChar c = false) → u ≠ [] →
      colGo (u ++ v) b = u ++ colGo v false := by
  intro u
  induction u with
  | nil =>
    intro v b _ h
    exact absurd rfl h
  | cons a u2 ih =>
    intro v b hu _
    have ha : isSpaceChar a = false := hu a (List.mem_cons_self a u2)
    rw [List.cons_append, colGo_cons_nonspace _ b ha]
    cases u2 with
    | nil => rfl
    | cons x xs =>
      rw [ih v false (fun c hc => hu c (List.mem_cons_of_mem a hc)) (by simp)]
      rfl

theorem colGo_true_headFails : ∀ l : Str, headFails isSpaceChar (colGo l true) := by
  intro l
  induction l with
  | nil => trivial
  | cons a as ih =>
    by_cases ha : isSpaceChar a = true
    · rw [colGo_cons_space_true as ha]
      exact ih
    · have ha2 : isSpaceChar a = false := by simpa using ha
      rw [colGo_cons_nonspace as true ha2]
      exact headFails_of_cons ha2

theorem headFails_word_colGo {l : Str} (h : headFails isWordChar l) :
    headFails isWordChar (colGo l false) := by
  cases l with
  | nil => trivial
  | cons d ds =>
    have hd : isWordChar d = false := h
    by_cases hs : isSpaceChar d = true
    · rw [colGo_cons_space_false ds hs]
      exact headFails_of_cons (by decide)
    · rw [colGo_cons_nonspace ds false (by simpa using hs)]
      exact headFails_of_cons hd

theorem colGo_applyWordMap_comm : ∀ l : Str,
    colGo (applyWordMap abbrevF l) false = applyWordMap abbrevF (colGo l false) ∧
    colGo (applyWordMap abbrevF l) true = applyWordMap abbrevF (colGo l true) := by
  intro l
  generalize hn : l.length = n
  induction n using Nat.strong_induction_on generalizing l with
  | _ n ih =>
  subst hn
  cases l with
  | nil =>
    constructor <;>
      simp only [applyWordMap_nil, show colGo ([] : Str) false = [] from rfl,
        show colGo ([] : Str) true = [] from rfl]
  | cons c cs =>
    by_cases hw : isWordChar c = true
    case pos =>
      have hsp : isSpaceChar c = false := word_not_space hw
      have hrun_all : ∀ x ∈ c :: cs.takeWhile isWordChar, isWordChar x = true := by
        intro x hx
        rcases List.mem_cons.mp hx with h | h
        · rw [h]; exact hw
        · exact List.mem_takeWhile_imp h
      have hrest := headFails_dropWhile isWordChar cs
      have hF := abbrevF_wordPreserving _ (by simp) hrun_all
      have hF_nospace : ∀ x ∈ abbrevF (c :: cs.takeWhile isWordChar), isSpaceChar x = false :=
        fun x hx => word_not_space (hF.2 x hx)
      have hrest_len : (cs.dropWhile isWordChar).length < (c :: cs).length := by
        have h2 := dropWhile_length_le isWordChar cs
        simp only [List.length_cons]
        omega
      have hsplit_col : colGo cs false =
          cs.takeWhile isWordChar ++ colGo (cs.dropWhile isWordChar) false := by
        cases htw : cs.takeWhile isWordChar with
        | nil =>
          have hdw : cs.dropWhile isWordChar = cs := by
            have h2 := List.takeWhile_append_dropWhile isWordChar cs
            rw [htw] at h2
            simpa using h2
          rw [hdw, List.nil_append]
        | cons t ts =>
          conv_lhs => rw [← List.takeWhile_append_dropWhile isWordChar cs, htw]
          rw [colGo_nonspace_front (t :: ts) _ false
            (fun x hx => word_not_space (List.mem_takeWhile_imp (htw ▸ hx))) (by simp)]
      have hcol_headFails : headFails isWordChar (colGo (cs.dropWhile isWordChar) false) :=
        headFails_word_colGo hrest
      have hkey : abbrevF (c :: cs.takeWhile isWordChar) ++
          colGo (applyWordMap abbrevF (cs.dropWhile isWordChar)) false =
          applyWordMap abbrevF (c :: colGo cs false) := by
        rw [hsplit_col]
        rw [show c :: (cs.takeWhile isWordChar ++ colGo (cs.dropWhile isWordChar) false) =
          (c :: cs.takeWhile isWordChar) ++ colGo (cs.dropWhile isWordChar) false from rfl]
        rw [applyWordMap_append_word abbrevF (by simp) hrun_all hcol_headFails]
        rw [(ih (cs.dropWhile isWordChar).length hrest_len _ rfl).1]
      constructor
      · rw [colGo_cons_nonspace cs false hsp]
        rw [applyWordMap_cons_word abbrevF cs hw]
        rw [colGo_nonspace_front _ _ false hF_nospace hF.1]
        exact hkey
      · rw [colGo_cons_nonspace cs true hsp]
        rw [applyWordMap_cons_word abbrevF cs hw]
        rw [colGo_nonspace_front _ _ true hF_nospace hF.1]
        exact hkey
    case neg =>
      have hw2 : isWordChar c = false := by simpa using hw
      by_cases hsp : isSpaceChar c = true
      · constructor
        · rw [applyWordMap_cons_sep abbrevF cs hw2]
          rw [colGo_cons_space_false _ hsp]
          rw [colGo_cons_space_false cs hsp]
          rw [applyWordMap_cons_sep abbrevF _ (by decide : isWordChar 32 = false)]
          rw [(ih cs.length (by simp) cs rfl).2]
        · rw [applyWordMap_cons_sep abbrevF cs hw2]
          rw [colGo_cons_space_true _ hsp]
          rw [colGo_cons_space_true cs hsp]
          exact (ih cs.length (by simp) cs rfl).2
      · have hsp2 : isSpaceChar c = false := by simpa using hsp
        constructor <;>
        · rw [applyWordMap_cons_sep abbrevF cs hw2]
          rw [colGo_cons_nonspace _ _ hsp2]
          rw [colGo_cons_nonspace cs _ hsp2]
          rw [applyWordMap_cons_sep abbrevF _ hw2]
          rw [(ih cs.length (by simp) cs rfl).1]

/-- The run map fixes the collapsed form of any of its fixed points. -/
theorem collapse_fix {z : Str} (hz : applyWordMap abbrevF z = z) :
    applyWordMap abbrevF (collapseWs z) = collapseWs z := by
  unfold collapseWs
  rw [← (colGo_applyWordMap_comm z).1, hz]


/-! ### Trimming and the run mapper; collapsed strings -/

theorem space_not_word {c : Nat} (h : isSpaceChar c = true) : isWordChar c = false := by
  simp only [isSpaceChar, decide_eq_true_eq] at h
  simp only [isWordChar, decide_eq_false_iff_not]
  omega

/-- Splitting off the trailing whitespace block. -/
theorem rtrim_decomp (b : Str) :
    b = rtrimJs b ++ (b.reverse.takeWhile isSpaceChar).reverse := by
  conv_lhs => rw [← List.reverse_reverse b,
    ← List.takeWhile_append_dropWhile isSpaceChar b.reverse, List.reverse_append]
  rfl

/-- `trim` splits a string into leading spaces, the trimmed core, and
trailing spaces. -/
theorem trim_decomp (u : Str) :
    ∃ a d e, u = a ++ d ++ e ∧ trimJs u = d ∧
      (∀ c ∈ a, isSpaceChar c = true) ∧ (∀ c ∈ e, isSpaceChar c = true) := by
  refine ⟨u.takeWhile isSpaceChar, trimJs u,
    ((u.dropWhile isSpaceChar).reverse.takeWhile isSpaceChar).reverse, ?_, rfl, ?_, ?_⟩
  · have hb : u = u.takeWhile isSpaceChar ++ u.dropWhile isSpaceChar :=
      (List.takeWhile_append_dropWhile isSpaceChar u).symm
    have hde := rtrim_decomp (u.dropWhile isSpaceChar)
    rw [List.append_assoc,
      show trimJs u = rtrimJs (u.dropWhile isSpaceChar) from rfl, ← hde]
    exact hb
  · exact fun c hc => List.mem_takeWhile_imp hc
  · intro c hc
    rw [List.mem_reverse] at hc
    exact List.mem_takeWhile_imp hc

theorem mem_of_mem_trimJs {u : Str} {c : Nat} (h : c ∈ trimJs u) : c ∈ u := by
  obtain ⟨a, d, e, hsplit, htrim, _, _⟩ := trim_decomp u
  rw [htrim] at h
  rw [hsplit]
  exact List.mem_append_left e (List.mem_append_right a h)

/-- Trimming a fixed point of the run map yields a fixed point. -/
theorem trim_fix {u : Str} (hu : applyWordMap abbrevF u = u) :
    applyWordMap abbrevF (trimJs u) = trimJs u := by
  obtain ⟨a, d, e, hsplit, htrim, ha, he⟩ := trim_decomp u
  have ha2 : ∀ c ∈ a, isWordChar c = false := fun c hc => space_not_word (ha c hc)
  have he2 : ∀ c ∈ e, isWordChar c = false := fun c hc => space_not_word (he c hc)
  have h1 : applyWordMap abbrevF u = a ++ (applyWordMap abbrevF d ++ e) := by
    conv_lhs => rw [hsplit]
    rw [List.append_assoc]
    rw [applyWordMap_sep_front abbrevF a _ ha2]
    rw [applyWordMap_append_sep abbrevF d he2]
  rw [hu] at h1
  rw [hsplit, List.append_assoc] at h1
  have h2 : d ++ e = applyWordMap abbrevF d ++ e := List.append_cancel_left h1
  have h3 : d = applyWordMap abbrevF d := List.append_cancel_right h2
  rw [htrim, ← h3]

theorem dropWhile_dropWhile (p : Nat → Bool) (l : Str) :
    (l.dropWhile p).dropWhile p = l.dropWhile p :=
  dropWhile_of_headFails (headFails_dropWhile p l)

/-- `trim` is idempotent. -/
theorem trimJs_idem (u : Str) : trimJs (trimJs u) = trimJs u := by
  unfold trimJs
  have hfb : headFails isSpaceChar (ltrimJs u) := headFails_dropWhile isSpaceChar u
  have h1 : ltrimJs (rtrimJs (ltrimJs u)) = rtrimJs (ltrimJs u) := by
    cases hd : rtrimJs (ltrimJs u) with
    | nil => rfl
    | cons x d2 =>
      have hb2 := rtrim_decomp (ltrimJs u)
      rw [hd] at hb2
      have hx : isSpaceChar x = false := by
        rw [hb2] at hfb
        exact hfb
      unfold ltrimJs
      exact List.dropWhile_cons_of_neg (by simp [hx])
  rw [h1]
  unfold rtrimJs
  rw [List.reverse_reverse, dropWhile_dropWhile]

/-- Characters of the collapsed string: surviving non-space characters of the
input, or the single space. -/
theorem colGo_mem : ∀ (l : Str) (b : Bool) (c : Nat), c ∈ colGo l b →
    (c ∈ l ∧ isSpaceChar c = false) ∨ c = 32 := by
  intro l
  induction l with
  | nil =>
    intro b c h
    cases b <;> exact absurd h (List.not_mem_nil c)
  | cons a as ih =>
    intro b c h
    by_cases ha : isSpaceChar a = true
    · cases b with
      | true =>
        rw [colGo_cons_space_true as ha] at h
        rcases ih true c h with ⟨h1, h2⟩ | h1
        · exact Or.inl ⟨List.mem_cons_of_mem a h1, h2⟩
        · exact Or.inr h1
      | false =>
        rw [colGo_cons_space_false as ha] at h
        rcases List.mem_cons.mp h with h1 | h1
        · exact Or.inr h1
        · rcases ih true c h1 with ⟨h2, h3⟩ | h2
          · exact Or.inl ⟨List.mem_cons_of_mem a h2, h3⟩
          · exact Or.inr h2
    · have ha2 : isSpaceChar a = false := by simpa using ha
      rw [colGo_cons_nonspace as b ha2] at h
      rcases List.mem_cons.mp h with h1 | h1
      · exact Or.inl ⟨h1 ▸ List.mem_cons_self a as, h1 ▸ ha2⟩
      · rcases ih false c h1 with ⟨h2, h3⟩ | h2
        · exact Or.inl ⟨List.mem_cons_of_mem a h2, h3⟩
        · exact Or.inr h2

/-- Whitespace in the string is exactly the single space character. -/
def wsCanonical (l : Str) : Prop := ∀ c ∈ l, isSpaceChar c = true → c = 32

/-- No two adjacent whitespace characters. -/
def noAdjSp (l : Str) : Prop :=
  l.Chain' (fun a b => ¬(isSpaceChar a = true ∧ isSpaceChar b = true))

theorem wsCanonical_colGo (l : Str) (b : Bool) : wsCanonical (colGo l b) := by
  intro c hc hsp
  rcases colGo_mem l b c hc with ⟨_, h2⟩ | h2
  · rw [hsp] at h2
    cases h2
  · exact h2

theorem noAdjSp_colGo : ∀ l : Str, noAdjSp (colGo l false) ∧ noAdjSp (colGo l true) := by
  intro l
  induction l with
  | nil => constructor <;> exact List.chain'_nil
  | cons a as ih =>
    by_cases ha : isSpaceChar a = true
    · constructor
      · rw [colGo_cons_space_false as ha]
        cases hX : colGo as true with
        | nil => exact List.chain'_singleton 32
        | cons x xs =>
          refine List.chain'_cons.mpr ⟨?_, hX ▸ ih.2⟩
          intro hand
          have hhf := colGo_true_headFails as
          rw [hX] at hhf
          have hx : isSpaceChar x = false := hhf
          rw [hx] at hand
          cases hand.2
      · rw [colGo_cons_space_true as ha]
        exact ih.2
    · have ha2 : isSpaceChar a = false := by simpa using ha
      constructor <;>
      · rw [colGo_cons_nonspace as _ ha2]
        cases hX : colGo as false with
        | nil => exact List.chain'_singleton a
        | cons x xs =>
          refine List.chain'_cons.mpr ⟨?_, hX ▸ ih.1⟩
          intro hand
          rw [ha2] at hand
          cases hand.1

/-- A canonical string with no adjacent spaces is a fixed point of
whitespace collapsing. -/
theorem collapsed_fixed : ∀ u : Str, wsCanonical u → noAdjSp u → collapseWs u = u := by
  intro u
  induction u with
  | nil => intro _ _; rfl
  | cons c cs ih =>
    intro hws hna
    by_cases hc : isSpaceChar c = true
    · have hc32 : c = 32 := hws c (List.mem_cons_self c cs) hc
      unfold collapseWs
      rw [colGo_cons_space_false cs hc]
      have htail : colGo cs true = cs := by
        cases cs with
        | nil => rfl
        | cons x xs =>
          have hx : isSpaceChar x = false := by
            have hr := (List.chain'_cons.mp hna).1
            by_contra hx2
            exact hr ⟨hc, by simpa using hx2⟩
          rw [colGo_cons_nonspace xs true hx]
          have h2 := ih (fun d hd hsd => hws d (List.mem_cons_of_mem c hd) hsd)
            (List.Chain'.tail hna)
          unfold collapseWs at h2
          rw [colGo_cons_nonspace xs false hx] at h2
          exact h2
      rw [htail, hc32]
    · have hc2 : isSpaceChar c = false := by simpa using hc
      unfold collapseWs
      rw [colGo_cons_nonspace cs false hc2]
      have h2 := ih (fun d hd hsd => hws d (List.mem_cons_of_mem c hd) hsd)
        (List.Chain'.tail hna)
      unfold collapseWs at h2
      rw [h2]

theorem wsCanonical_trimJs {u : Str} (h : wsCanonical u) : wsCanonical (trimJs u) :=
  fun c hc hsp => h c (mem_of_mem_trimJs hc) hsp

theorem noAdjSp_trimJs {u : Str} (h : noAdjSp u) : noAdjSp (trimJs u) := by
  obtain ⟨a, d, e, hsplit, htrim, _, _⟩ := trim_decomp u
  rw [htrim]
  rw [hsplit] at h
  unfold noAdjSp at h ⊢
  rw [List.chain'_append, List.chain'_append] at h
  exact h.1.2.1


/-! ### Character tracking through the pipeline, and idempotence -/

theorem lowerChar_idem (c : Nat) : lowerChar (lowerChar c) = lowerChar c := by
  simp only [lowerChar]
  split_ifs <;> omega

theorem mem_of_mem_takeWhileStr {p : Nat → Bool} {l : Str} {c : Nat}
    (h : c ∈ l.takeWhile p) : c ∈ l := by
  rw [← List.takeWhile_append_dropWhile p l]
  exact List.mem_append_left _ h

theorem mem_of_mem_dropWhileStr {p : Nat → Bool} {l : Str} {c : Nat}
    (h : c ∈ l.dropWhile p) : c ∈ l := by
  rw [← List.takeWhile_append_dropWhile p l]
  exact List.mem_append_right _ h

theorem abbrevF_mem (v : Str) (c : Nat) (h : c ∈ abbrevF v) :
    c ∈ v ∨ c ∈ str "rdstavemn" := by
  rw [abbrevF_spec v] at h
  by_cases h1 : v = str "road"
  · rw [if_pos h1, show str "rd" = [114, 100] from rfl] at h
    right
    rcases List.mem_cons.mp h with h2 | h2
    · rw [h2]; decide
    · rw [List.mem_singleton] at h2
      rw [h2]; decide
  · rw [if_neg h1] at h
    by_cases h2 : v = str "street"
    · rw [if_pos h2, show str "st" = [115, 116] from rfl] at h
      right
      rcases List.mem_cons.mp h with h3 | h3
      · rw [h3]; decide
      · rw [List.mem_singleton] at h3
        rw [h3]; decide
    · rw [if_neg h2] at h
      by_cases h3 : v = str "avenue"
      · rw [if_pos h3, show str "ave" = [97, 118, 101] from rfl] at h
        right
        rcases List.mem_cons.mp h with h4 | h4
        · rw [h4]; decide
        · rcases List.mem_cons.mp h4 with h5 | h5
          · rw [h5]; decide
          · rw [List.mem_singleton] at h5
            rw [h5]; decide
      · rw [if_neg h3] at h
        by_cases h4 : v = str "mountain"
        · rw [if_pos h4, show str "mtn" = [109, 116, 110] from rfl] at h
          right
          rcases List.mem_cons.mp h with h5 | h5
          · rw [h5]; decide
          · rcases List.mem_cons.mp h5 with h6 | h6
            · rw [h6]; decide
            · rw [List.mem_singleton] at h6
              rw [h6]; decide
        · rw [if_neg h4] at h
          exact Or.inl h

theorem applyWordMap_abbrevF_mem : ∀ (l : Str) (c : Nat),
    c ∈ applyWordMap abbrevF l → c ∈ l ∨ c ∈ str "rdstavemn" := by
  intro l
  generalize hn : l.length = n
  induction n using Nat.strong_induction_on generalizing l with
  | _ n ih =>
  subst hn
  cases l with
  | nil =>
    intro c h
    rw [applyWordMap_nil] at h
    cases h
  | cons a cs =>
    intro c h
    by_cases hw : isWordChar a = true
    · have hrest_len : (cs.dropWhile isWordChar).length < (a :: cs).length := by
        have h2 := dropWhile_length_le isWordChar cs
        simp only [List.length_cons]
        omega
      rw [applyWordMap_cons_word _ _ hw] at h
      rcases List.mem_append.mp h with h1 | h1
      · rcases abbrevF_mem _ c h1 with h2 | h2
        · left
          rcases List.mem_cons.mp h2 with h3 | h3
          · exact h3 ▸ List.mem_cons_self a cs
          · exact List.mem_cons_of_mem a (mem_of_mem_takeWhileStr h3)
        · right
          exact h2
      · rcases ih (cs.dropWhile isWordChar).length hrest_len _ rfl c h1 with h2 | h2
        · left
          exact List.mem_cons_of_mem a (mem_of_mem_dropWhileStr h2)
        · right
          exact h2
    · rw [applyWordMap_cons_sep _ _ (by simpa using hw)] at h
      rcases List.mem_cons.mp h with h1 | h1
      · left
        exact h1 ▸ List.mem_cons_self a cs
      · rcases ih cs.length (by simp) cs rfl c h1 with h2 | h2
        · left
          exact List.mem_cons_of_mem a h2
        · right
          exact h2

/-- Every character of a normalized string is lowercase-stable and is neither
a period nor a comma. -/
theorem normalize_chars (s : Str) :
    ∀ c ∈ normalize s, lowerChar c = c ∧ c ≠ 46 ∧ c ≠ 44 := by
  intro c hc
  unfold normalize at hc
  rw [replace_chain_eq] at hc
  have h1 := mem_of_mem_trimJs hc
  unfold collapseWs at h1
  rcases colGo_mem _ false c h1 with ⟨h2, _⟩ | h2
  · rcases applyWordMap_abbrevF_mem _ c h2 with h3 | h3
    · unfold stripPunct at h3
      have h4 := List.mem_filter.mp h3
      rcases List.mem_map.mp h4.1 with ⟨x, _, hx⟩
      have hpred : c ≠ 46 ∧ c ≠ 44 := by
        have h5 := h4.2
        simp at h5
        exact h5
      exact ⟨hx ▸ lowerChar_idem x, hpred.1, hpred.2⟩
    · rw [show str "rdstavemn" = [114, 100, 115, 116, 97, 118, 101, 109, 110] from rfl] at h3
      simp only [List.mem_cons, List.not_mem_nil, or_false] at h3
      rcases h3 with rfl | rfl | rfl | rfl | rfl | rfl | rfl | rfl | rfl <;>
        exact ⟨by decide, by decide, by decide⟩
  · rw [h2]
    exact ⟨by decide, by decide, by decide⟩

/-- C8: the comparator's normalization is idempotent — normalizing an
already-normalized string is a no-op. -/
theorem claim_C8 (s : Str) : normalize (normalize s) = normalize s := by
  have hchars := normalize_chars s
  have hlower : (normalize s).map lowerChar = normalize s := by
    rw [List.map_congr_left (fun a ha => (hchars a ha).1)]
    exact List.map_id (normalize s)
  have hstrip : stripPunct (normalize s) = normalize s := by
    unfold stripPunct
    rw [List.filter_eq_self]
    intro a ha
    have h := hchars a ha
    simp [h.2.1, h.2.2]
  have hawm : applyWordMap abbrevF (normalize s) = normalize s := by
    unfold normalize
    rw [replace_chain_eq]
    exact trim_fix (collapse_fix (applyWordMap_abbrevF_idem _))
  have hcol : collapseWs (normalize s) = normalize s := by
    unfold normalize
    refine collapsed_fixed _ ?_ ?_
    · exact wsCanonical_trimJs (wsCanonical_colGo _ false)
    · exact noAdjSp_trimJs (noAdjSp_colGo _).1
  have htrim : trimJs (normalize s) = normalize s := by
    unfold normalize
    exact trimJs_idem _
  conv_lhs => rw [show normalize (normalize s) =
    trimJs (collapseWs (applyWordMap abbrevF
      (stripPunct ((normalize s).map lowerChar)))) from by
        unfold normalize
        rw [replace_chain_eq]]
  rw [hlower, hstrip, hawm, hcol, htrim]

end Geocode
